import Mathlib

/-!
Shallow embedding of the lock-free SPSC queue from `lockfree` (queue_detail.hpp /
queue.hpp) and proofs about its single-threaded semantics.

The ring buffer `queue__base<data_type, queue_size>` holds `queue_size + 1` slots
(`buffer_size_ = queue_size + 1`); `read_index_` and `write_index_` are the two
cursors.  Atomic loads and stores are modelled as plain reads and writes, and a
compare-and-swap retry loop executed with no interference is modelled by its
sequential result.  The element type is an arbitrary inhabited type, matching the
default-constructibility requirement on `data_type`; the buffer is a `List`
standing for `std::array`, written with `List.set` and read with `List.getD`.
-/

namespace Lockfree

/-- The queue state: `buffer_` (an array of `queue_size + 1` slots), and the two
cursors `read_index_` and `write_index_`.  The capacity is implicit: a queue of
capacity `n` has `buffer.length = n + 1`. -/
structure Queue (α : Type) where
  buffer : List α
  read_index : Nat
  write_index : Nat
  deriving DecidableEq, Repr

variable {α : Type} [Inhabited α]

/-- queue__base::next_index: `return ++index == buffer_size_ ? 0 : index;`. -/
def next_index (bufferSize index : Nat) : Nat :=
  if index + 1 = bufferSize then 0 else index + 1

/-- A freshly default-constructed queue of capacity `n`: every slot of `buffer_`
is default-constructed (`{ }`) and both cursors are 0. -/
def fresh (n : Nat) : Queue α :=
  { buffer := List.replicate (n + 1) default, read_index := 0, write_index := 0 }

/-- queue__base::push (the no-overwrite data path): load `write_index_`, compute
its successor; if that equals `read_index_` fail and leave the state unchanged,
else store the element at the old write index and publish the new write index. -/
def base_push (q : Queue α) (elem : α) : Bool × Queue α :=
  let old_write_index := q.write_index
  let new_write_index := next_index q.buffer.length old_write_index
  if new_write_index = q.read_index then
    (false, q)
  else
    (true, { q with buffer := q.buffer.set old_write_index elem,
                    write_index := new_write_index })

/-- queue__base::pop: load `read_index_`, compute its successor; if the old read
index equals `write_index_` fail (empty), else publish the new read index and
move the slot at the old read index out.  The returned option is the popped
value (`none` models returning `false` with the out-reference untouched). -/
def base_pop (q : Queue α) : Option α × Queue α :=
  let old_read_index := q.read_index
  let new_read_index := next_index q.buffer.length old_read_index
  if old_read_index = q.write_index then
    (none, q)
  else
    (some (q.buffer.getD old_read_index default),
     { q with read_index := new_read_index })

/-- data_write_policy_t<Base, overwrite>::push: load `read_index_`, CAS it to its
successor (with no interference the retry loop performs exactly this update),
write the element into the slot at the old read index, store `write_index_ :=`
the old read index, and return true unconditionally. -/
def overwrite_push (q : Queue α) (elem : α) : Bool × Queue α :=
  let old_read_index := q.read_index
  let new_read_index := next_index q.buffer.length old_read_index
  (true, { buffer := q.buffer.set old_read_index elem,
           read_index := new_read_index,
           write_index := old_read_index })

/-- The two data write policies of `enum class data_write_policy`. -/
inductive Policy where
  | no_overwrite
  | overwrite
  deriving DecidableEq, Repr

/-- queue::push dispatches to Policy::push: the no-overwrite policy delegates to
queue__base::push, the overwrite policy uses its own push. -/
def qpush (p : Policy) (q : Queue α) (elem : α) : Bool × Queue α :=
  match p with
  | .no_overwrite => base_push q elem
  | .overwrite => overwrite_push q elem

/-- queue::empty: `read_index_.load() == write_index_.load()`. -/
def qempty (q : Queue α) : Bool :=
  q.read_index == q.write_index

/-- queue::full: `next_index(write_index_.load()) == read_index_.load()`. -/
def qfull (q : Queue α) : Bool :=
  next_index q.buffer.length q.write_index == q.read_index

/-- queue::size: `(buffer_size_ - read_index_ + write_index_) % buffer_size_` in
`size_t` arithmetic.  In every reachable state `read_index ≤ buffer_size_`, so
the unsigned subtraction never wraps and coincides with truncated `Nat`
subtraction. -/
def qsize (q : Queue α) : Nat :=
  (q.buffer.length - q.read_index + q.write_index) % q.buffer.length

/-- queue::clear: CAS-loop `read_index_` to `write_index_.load()`; run without
interference the loop terminates having stored the write index into the read
index. -/
def qclear (q : Queue α) : Queue α :=
  { q with read_index := q.write_index }

/-- queue::push_wait_for(elem, num_tries): `for (i = 0; i < num_tries; ++i) if
(Policy::push(elem)) return true; return false;`. -/
def push_wait_for (p : Policy) (q : Queue α) (elem : α) : Nat → Bool × Queue α
  | 0 => (false, q)
  | Nat.succ n =>
    match qpush p q elem with
    | (true, q') => (true, q')
    | (false, q') => push_wait_for p q' elem n

/-- queue::pop_wait_for(elem, num_tries): `for (i = 0; i < num_tries; ++i) if
(Policy::pop(elem)) return true; return false;`. -/
def pop_wait_for (q : Queue α) : Nat → Option α × Queue α
  | 0 => (none, q)
  | Nat.succ n =>
    match base_pop q with
    | (some v, q') => (some v, q')
    | (none, q') => pop_wait_for q' n

/-- queue::push_range(first, last): push each element of the range in order,
stopping at the first failed push, and return how many were pushed. -/
def push_range (p : Policy) (q : Queue α) : List α → Nat × Queue α
  | [] => (0, q)
  | elem :: rest =>
    match qpush p q elem with
    | (true, q') =>
      let r := push_range p q' rest
      (r.1 + 1, r.2)
    | (false, q') => (0, q')

/-- Iterated queue::pop: `n` successive calls of queue__base::pop, collecting
each call's result in order (queue::pop_range drives exactly this loop). -/
def popN (q : Queue α) : Nat → List (Option α) × Queue α
  | 0 => ([], q)
  | Nat.succ n =>
    let r := base_pop q
    let rest := popN r.2 n
    (r.1 :: rest.1, rest.2)

/-- Iterated queue::push through the policy, collecting each push's boolean
result in order (the push loop of the FIFO round-trip scenarios). -/
def push_list (p : Policy) (q : Queue α) : List α → List Bool × Queue α
  | [] => ([], q)
  | elem :: rest =>
    let r := qpush p q elem
    let rest' := push_list p r.2 rest
    (r.1 :: rest'.1, rest'.2)

/-- State iteration used to specify push_range: fold the policy push over a
list, keeping only the state. -/
def push_iter (p : Policy) (q : Queue α) (l : List α) : Queue α :=
  l.foldl (fun s e => (qpush p s e).2) q

/-- queue::push_wait modelled with explicit fuel: `while (!Policy::push(elem));`
returns the state after the first successful push, or `none` if the push has not
succeeded within `fuel` iterations. -/
def push_wait_fuel (p : Policy) (q : Queue α) (elem : α) : Nat → Option (Queue α)
  | 0 => none
  | Nat.succ n =>
    match qpush p q elem with
    | (true, q') => some q'
    | (false, q') => push_wait_fuel p q' elem n

/-- queue::push_wait_for(elem, timeout): `std::async` runs a task whose local
`auto elem = data_type();` shadows the caller's argument; the task busy-pushes
that default-constructed local via push_wait and returns it.  If the future is
ready before the timeout, the caller's `elem` is assigned the task's value and
true is returned.  `fuel` bounds the busy loop; the result is the triple
(returned bool, queue state, value of the caller's `elem` variable afterwards),
and `none` stands for the run where the future is not ready in time.  Note the
caller's argument `elem` is never read: the task pushes `default`. -/
def push_wait_for_timeout (p : Policy) (q : Queue α) (elem : α) (fuel : Nat) :
    Option (Bool × Queue α × α) :=
  match push_wait_fuel p q (default : α) fuel with
  | some q' => some (true, q', (default : α))
  | none => none

/-- queue::consume_with with the intended pop call.  The source passes `&elem`
(a pointer prvalue) to `Policy::pop`, which expects `U &` and asserts
`is_convertible_v<data_type, U>`; that call is ill-formed for ordinary element
types, so this definition performs the documented contract `Policy::pop(elem)`:
default-construct a local, pop into it, and only on success invoke `fn` with the
popped value.  The third component is the value `fn` was invoked with (`none`
when `fn` was not invoked). -/
def consume_with (q : Queue α) : Bool × Queue α × Option α :=
  match base_pop q with
  | (some v, q') => (true, q', some v)
  | (none, q') => (false, q', none)

/-! ### Basic lemmas about the index arithmetic and the buffer -/

lemma next_index_lt {b i : Nat} (h : i < b) : next_index b i < b := by
  unfold next_index
  split <;> omega

lemma next_index_eq_mod {b i : Nat} (h : i < b) : next_index b i = (i + 1) % b := by
  unfold next_index
  split
  · rename_i h1
    rw [h1, Nat.mod_self]
  · rename_i h1
    rw [Nat.mod_eq_of_lt (by omega)]

lemma add_mod_left_cancel {b r a c : Nat} (ha : a < b) (hc : c < b)
    (h : (r + a) % b = (r + c) % b) : a = c := by
  have h2 : a ≡ c [MOD b] := Nat.ModEq.add_left_cancel' r h
  have h3 : a % b = c % b := h2
  rwa [Nat.mod_eq_of_lt ha, Nat.mod_eq_of_lt hc] at h3

lemma add_mod_ne_self {b r m : Nat} (hr : r < b) (hm0 : 0 < m) (hmb : m < b) :
    (r + m) % b ≠ r := by
  intro h
  have h' : (r + m) % b = (r + 0) % b := by
    rw [h, Nat.add_zero, Nat.mod_eq_of_lt hr]
  have := add_mod_left_cancel hmb (by omega) h'
  omega

lemma getD_set_self : ∀ (l : List α) (i : Nat) (a d : α), i < l.length →
    (l.set i a).getD i d = a := by
  intro l
  induction l with
  | nil => intro i a d h; simp at h
  | cons x xs ih =>
    intro i a d h
    cases i with
    | zero => simp [List.getD]
    | succ j =>
      have hj : j < xs.length := by simpa using h
      simpa [List.getD] using ih j a d hj

lemma getD_set_ne : ∀ (l : List α) (i j : Nat) (a d : α), i ≠ j →
    (l.set i a).getD j d = l.getD j d := by
  intro l
  induction l with
  | nil => intro i j a d _; simp
  | cons x xs ih =>
    intro i j a d hij
    cases i with
    | zero =>
      cases j with
      | zero => exact absurd rfl hij
      | succ k => simp [List.getD]
    | succ i' =>
      cases j with
      | zero => simp [List.getD]
      | succ k => simpa [List.getD] using ih i' k a d (by omega)

/-- A failed policy push leaves the queue state unchanged. -/
lemma qpush_fail_eq {p : Policy} {q : Queue α} {e : α}
    (h : (qpush p q e).1 = false) : (qpush p q e).2 = q := by
  cases p with
  | no_overwrite =>
    unfold qpush base_push at h ⊢
    by_cases hfull : next_index q.buffer.length q.write_index = q.read_index
    · simp [hfull]
    · simp [hfull] at h
  | overwrite =>
    unfold qpush overwrite_push at h
    simp at h

/-- A failed pop leaves the queue state unchanged. -/
lemma base_pop_fail_eq {q : Queue α} (h : (base_pop q).1 = none) :
    (base_pop q).2 = q := by
  unfold base_pop at h ⊢
  by_cases hemp : q.read_index = q.write_index
  · simp [hemp]
  · simp [hemp] at h

/-! ### Claim theorems: retry combinators, clear, consume_with, and the two
code-behavior evaluations -/

/-- C9: for every queue state, clear() followed by empty() returns true, and
clear() achieves this by moving read_index to the current write_index. -/
theorem clear_then_empty (q : Queue α) :
    qempty (qclear q) = true ∧ (qclear q).read_index = q.write_index := by
  constructor
  · simp [qempty, qclear]
  · rfl

/-- C8: push_wait_for(elem, num_tries) and pop_wait_for(elem, num_tries) retry
the plain operation at most `num_tries` times, return true at the first success
(with the state of that successful plain operation), and return false with the
queue unchanged when every attempt fails; zero tries always returns false and
leaves the queue unchanged. -/
theorem wait_for_num_tries_spec (p : Policy) (q : Queue α) (e : α) (k : Nat) :
    push_wait_for p q e 0 = (false, q)
    ∧ pop_wait_for q 0 = (none, q)
    ∧ push_wait_for p q e k =
        (if 0 < k ∧ (qpush p q e).1 = true then (true, (qpush p q e).2) else (false, q))
    ∧ pop_wait_for q k =
        (if 0 < k ∧ ((base_pop q).1.isSome = true) then base_pop q else (none, q)) := by
  refine ⟨rfl, rfl, ?_, ?_⟩
  · induction k with
    | zero => simp [push_wait_for]
    | succ m ih =>
      rcases hp : qpush p q e with ⟨b, q'⟩
      cases b with
      | true => simp [push_wait_for, hp]
      | false =>
        have hq' : q' = q := by
          have := qpush_fail_eq (p := p) (q := q) (e := e) (by rw [hp])
          rw [hp] at this
          exact this
        subst hq'
        simp only [push_wait_for, hp]
        rw [ih]
        simp [hp]
  · induction k with
    | zero => simp [pop_wait_for]
    | succ m ih =>
      rcases hp : base_pop q with ⟨o, q'⟩
      cases o with
      | some v => simp [pop_wait_for, hp]
      | none =>
        have hq' : q' = q := by
          have := base_pop_fail_eq (q := q) (by rw [hp])
          rw [hp] at this
          exact this
        subst hq'
        simp only [pop_wait_for, hp]
        rw [ih]
        simp [hp]

/-- C6: consume_with returns false without invoking the function when the queue
is empty, and otherwise pops exactly one element (the oldest, at read_index),
invokes the function once with that element, and returns true. -/
theorem consume_with_spec (q : Queue α) :
    (q.read_index = q.write_index → consume_with q = (false, q, none))
    ∧ (q.read_index ≠ q.write_index →
        consume_with q =
          (true,
           { q with read_index := next_index q.buffer.length q.read_index },
           some (q.buffer.getD q.read_index default))) := by
  constructor
  · intro h
    simp [consume_with, base_pop, h]
  · intro h
    simp [consume_with, base_pop, h]

/-- C6 witness: consuming from the non-empty queue with buffer [5,6,7],
read_index 0, write_index 2 invokes the function with the oldest element 5 and
advances read_index to 1. -/
theorem consume_with_spec_witness :
    ((⟨[5,6,7],0,2⟩ : Queue Nat).read_index ≠ (⟨[5,6,7],0,2⟩ : Queue Nat).write_index)
    ∧ consume_with (⟨[5,6,7],0,2⟩ : Queue Nat) = (true, ⟨[5,6,7],1,2⟩, some 5) :=
  ⟨by decide, (consume_with_spec (⟨[5,6,7],0,2⟩ : Queue Nat)).2 (by decide)⟩

/-- C1 (code behavior at the claim's concrete input): with capacity 4 and the
overwrite policy, pushing 0,1,2,3,4 into a fresh queue makes all five pushes
return true, but the subsequent pops yield 0,1,2,3 and then fail: the newest
element 4 is the one that is not retrievable, not the oldest element 0, because
the overwrite push evicts via read_index on every call, full or not. -/
theorem overwrite_push_sequence_eval :
    (push_list .overwrite (fresh 4 : Queue Nat) [0,1,2,3,4]).1 = List.replicate 5 true
    ∧ (popN (push_list .overwrite (fresh 4 : Queue Nat) [0,1,2,3,4]).2 5).1
        = [some 0, some 1, some 2, some 3, none]
    ∧ (popN (push_list .overwrite (fresh 4 : Queue Nat) [0,1,2,3,4]).2 5).1
        ≠ [some 1, some 2, some 3, some 4, none] := by
  refine ⟨by decide, by decide, by decide⟩

/-- C2 (code behavior at a concrete input): on an empty capacity-1 queue of
naturals, push_wait_for(7, timeout) with the future ready in time returns true,
but the value wired into the queue is the default-constructed 0 (the async
task's local shadows the argument), the caller's variable is overwritten with 0,
and the subsequent pop yields 0, not the pushed argument 7. -/
theorem push_wait_for_timeout_eval :
    push_wait_for_timeout .no_overwrite (fresh 1 : Queue Nat) 7 1
      = some (true, ⟨[0, 0], 0, 1⟩, 0)
    ∧ (base_pop (⟨[0, 0], 0, 1⟩ : Queue Nat)).1 = some 0
    ∧ (base_pop (⟨[0, 0], 0, 1⟩ : Queue Nat)).1 ≠ some 7 := by
  refine ⟨by decide, by decide, by decide⟩

/-- C5: push_range attempts the plain push on each element in sequence order
(the state after it is the fold of the first `count` pushes), each of the first
`count` attempts succeeds, it stops at the first failed push (if `count` is
short of the range, the very next push from the reached state fails), and it
returns the number of elements successfully pushed; under the overwrite policy
it never stops early and the count equals the length of the range. -/
theorem push_range_spec (p : Policy) (q : Queue α) (l : List α) :
    (push_range p q l).1 ≤ l.length
    ∧ (push_range p q l).2 = push_iter p q (l.take (push_range p q l).1)
    ∧ (∀ i, i < (push_range p q l).1 →
        (qpush p (push_iter p q (l.take i)) (l.getD i default)).1 = true)
    ∧ ((push_range p q l).1 < l.length →
        (qpush p (push_iter p q (l.take (push_range p q l).1))
          (l.getD (push_range p q l).1 default)).1 = false)
    ∧ (p = .overwrite → (push_range p q l).1 = l.length) := by
  induction l generalizing q with
  | nil =>
    refine ⟨Nat.le_refl 0, rfl, ?_, ?_, ?_⟩

    · intro i hi; simp [push_range] at hi
    · intro h; simp [push_range] at h
    · intro _; rfl
  | cons e es ih =>
    rcases hp : qpush p q e with ⟨b, q'⟩
    cases b with
    | true =>
      obtain ⟨ih1, ih2, ih3, ih4, ih5⟩ := ih q'
      have hcount : (push_range p q (e :: es)).1 = (push_range p q' es).1 + 1 := by
        simp [push_range, hp]
      have hstate : (push_range p q (e :: es)).2 = (push_range p q' es).2 := by
        simp [push_range, hp]
      have hiter : ∀ t : List α, push_iter p q (e :: t) = push_iter p q' t := by
        intro t
        simp [push_iter, List.foldl_cons, hp]
      refine ⟨?_, ?_, ?_, ?_, ?_⟩
      · rw [hcount]; simpa using Nat.succ_le_succ ih1
      · rw [hcount, hstate, List.take_succ_cons, hiter]; exact ih2
      · intro i hi
        cases i with
        | zero => simpa [push_iter, hp] using congrArg Prod.fst hp
        | succ i' =>
          rw [hcount] at hi
          have hi' : i' < (push_range p q' es).1 := by omega
          rw [List.take_succ_cons, hiter, List.getD_cons_succ]
          exact ih3 i' hi'
      · intro hlt
        rw [hcount] at hlt
        have hlt' : (push_range p q' es).1 < es.length := by simpa using hlt
        rw [hcount, List.take_succ_cons, hiter, List.getD_cons_succ]
        exact ih4 hlt'
      · intro hpol
        rw [hcount, ih5 hpol]
        simp
    | false =>
      have hq' : q' = q := by
        have h1 := qpush_fail_eq (p := p) (q := q) (e := e) (by rw [hp])
        rw [hp] at h1
        exact h1
      rw [hq'] at hp
      have hcount : (push_range p q (e :: es)).1 = 0 := by
        simp [push_range, hp]
      have hstate : (push_range p q (e :: es)).2 = q := by
        simp [push_range, hp]
      refine ⟨?_, ?_, ?_, ?_, ?_⟩
      · rw [hcount]; exact Nat.zero_le _
      · rw [hcount, hstate]; rfl
      · intro i hi; rw [hcount] at hi; omega
      · intro _
        rw [hcount]
        simpa [push_iter] using congrArg Prod.fst hp
      · intro hpol
        subst hpol
        have : (overwrite_push q e).1 = false := by
          simpa [qpush] using congrArg Prod.fst hp
        simp [overwrite_push] at this

/-- C5 witness: pushing the range [1,2,3,4] into a fresh no-overwrite queue of
capacity 2 pushes exactly 2 elements, and under overwrite the whole range. -/
theorem push_range_spec_witness :
    ((push_range .no_overwrite (fresh 2 : Queue Nat) [1,2,3,4]).1 ≤ 4
      ∧ (push_range .no_overwrite (fresh 2 : Queue Nat) [1,2,3,4]).2
          = push_iter .no_overwrite (fresh 2 : Queue Nat)
              ([1,2,3,4].take (push_range .no_overwrite (fresh 2 : Queue Nat) [1,2,3,4]).1)
      ∧ (∀ i, i < (push_range .no_overwrite (fresh 2 : Queue Nat) [1,2,3,4]).1 →
          (qpush .no_overwrite
            (push_iter .no_overwrite (fresh 2 : Queue Nat) ([1,2,3,4].take i))
            ([1,2,3,4].getD i default)).1 = true)
      ∧ ((push_range .no_overwrite (fresh 2 : Queue Nat) [1,2,3,4]).1 < 4 →
          (qpush .no_overwrite
            (push_iter .no_overwrite (fresh 2 : Queue Nat)
              ([1,2,3,4].take (push_range .no_overwrite (fresh 2 : Queue Nat) [1,2,3,4]).1))
            ([1,2,3,4].getD (push_range .no_overwrite (fresh 2 : Queue Nat) [1,2,3,4]).1
              default)).1 = false)
      ∧ (Policy.no_overwrite = Policy.overwrite →
          (push_range .no_overwrite (fresh 2 : Queue Nat) [1,2,3,4]).1 = 4))
    ∧ (push_range .no_overwrite (fresh 2 : Queue Nat) [1,2,3,4]).1 = 2
    ∧ (push_range .overwrite (fresh 2 : Queue Nat) [1,2,3,4]).1 = 4 :=
  ⟨push_range_spec .no_overwrite (fresh 2 : Queue Nat) [1,2,3,4], by decide, by decide⟩

/-! ### The FIFO round trip: running pushes and pops around the ring -/

/-- Running `vs` through queue__base::push starting from a queue that already
holds `k` live elements written from an empty point `r` (read_index `r`,
write_index `(r + k) % (n + 1)`): when `k + vs.length ≤ n` every push succeeds,
the cursors advance as expected, slot `(r + k + i) % (n + 1)` receives `vs[i]`,
and every other slot is untouched. -/
theorem push_list_run (n : Nat) (vs : List α) :
    ∀ (buf : List α) (r k : Nat),
      buf.length = n + 1 → r < n + 1 → k + vs.length ≤ n →
      ∃ buf' : List α,
        push_list .no_overwrite (⟨buf, r, (r + k) % (n + 1)⟩ : Queue α) vs
          = (List.replicate vs.length true, ⟨buf', r, (r + k + vs.length) % (n + 1)⟩)
        ∧ buf'.length = n + 1
        ∧ (∀ i, i < vs.length →
            buf'.getD ((r + k + i) % (n + 1)) default = vs.getD i default)
        ∧ (∀ j, (∀ i, i < vs.length → j ≠ (r + k + i) % (n + 1)) →
            buf'.getD j default = buf.getD j default) := by
  induction vs with
  | nil =>
    intro buf r k hbuf hr _
    refine ⟨buf, rfl, hbuf, ?_, ?_⟩
    · intro i hi; exact absurd hi (Nat.not_lt_zero i)
    · intro j _; rfl
  | cons v rest ih =>
    intro buf r k hbuf hr hk
    have hlen : (v :: rest).length = rest.length + 1 := rfl
    have hwlt : (r + k) % (n + 1) < n + 1 := Nat.mod_lt _ (Nat.succ_pos n)
    have hklt : k < n + 1 := by rw [hlen] at hk; omega
    have hpush : base_push (⟨buf, r, (r + k) % (n + 1)⟩ : Queue α) v
        = (true, ⟨buf.set ((r + k) % (n + 1)) v, r, (r + k + 1) % (n + 1)⟩) := by
      have hnext : next_index buf.length ((r + k) % (n + 1)) = (r + k + 1) % (n + 1) := by
        rw [hbuf, next_index_eq_mod hwlt]
        exact Nat.mod_add_mod (r + k) (n + 1) 1
      have hne : (r + k + 1) % (n + 1) ≠ r := by
        have harg : r + k + 1 = r + (k + 1) := by omega
        rw [harg]
        exact add_mod_ne_self hr (by omega) (by rw [hlen] at hk; omega)
      simp only [base_push, hnext]
      rw [if_neg hne]
    have hstep : push_list .no_overwrite (⟨buf, r, (r + k) % (n + 1)⟩ : Queue α) (v :: rest)
        = ((base_push (⟨buf, r, (r + k) % (n + 1)⟩ : Queue α) v).1 ::
            (push_list .no_overwrite
              (base_push (⟨buf, r, (r + k) % (n + 1)⟩ : Queue α) v).2 rest).1,
           (push_list .no_overwrite
              (base_push (⟨buf, r, (r + k) % (n + 1)⟩ : Queue α) v).2 rest).2) := rfl
    obtain ⟨buf'', heq, hlen'', hcontent, hsame⟩ :=
      ih (buf.set ((r + k) % (n + 1)) v) r (k + 1)
        (by rw [List.length_set]; exact hbuf) hr (by rw [hlen] at hk; omega)
    refine ⟨buf'', ?_, hlen'', ?_, ?_⟩
    · rw [hstep, hpush]
      have harg : r + (k + 1) + rest.length = r + k + (v :: rest).length := by
        rw [hlen]; omega
      rw [show ((true, ⟨buf.set ((r + k) % (n + 1)) v, r,
            (r + k + 1) % (n + 1)⟩) : Bool × Queue α).2
          = (⟨buf.set ((r + k) % (n + 1)) v, r, (r + (k + 1)) % (n + 1)⟩ : Queue α) from rfl,
         heq, harg]
      rfl
    · intro i hi
      cases i with
      | zero =>
        have hj0 : ∀ i', i' < rest.length →
            (r + k) % (n + 1) ≠ (r + (k + 1) + i') % (n + 1) := by
          intro i' hi' hcontra
          have harg : r + (k + 1) + i' = r + (k + 1 + i') := by omega
          rw [harg] at hcontra
          have hieq := add_mod_left_cancel hklt
            (by rw [hlen] at hk; omega) hcontra
          omega
        have h1 := hsame ((r + k) % (n + 1)) hj0
        have h2 : (buf.set ((r + k) % (n + 1)) v).getD ((r + k) % (n + 1)) default = v :=
          getD_set_self buf _ v default (by rw [hbuf]; exact hwlt)
        have harg : r + k + 0 = r + k := by omega
        rw [harg, h1, h2]
        rfl
      | succ i' =>
        have harg : r + k + (i' + 1) = r + (k + 1) + i' := by omega
        rw [harg]
        have hi' : i' < rest.length := by rw [hlen] at hi; omega
        rw [hcontent i' hi']
        rfl
    · intro j hj
      have hj' : ∀ i', i' < rest.length → j ≠ (r + (k + 1) + i') % (n + 1) := by
        intro i' hi'
        have harg : r + (k + 1) + i' = r + k + (i' + 1) := by omega
        rw [harg]
        exact hj (i' + 1) (by rw [hlen]; omega)
      have h1 := hsame j hj'
      have h2 : (buf.set ((r + k) % (n + 1)) v).getD j default = buf.getD j default := by
        apply getD_set_ne
        have := hj 0 (by rw [hlen]; omega)
        have harg : r + k + 0 = r + k := by omega
        rw [harg] at this
        exact fun hcontra => this hcontra.symm
      rw [h1, h2]

/-- Running `us.length` pops on a queue whose live elements are `us`, laid out
from read_index `r` (write_index `(r + us.length) % (n + 1)`): every pop
succeeds, the popped values are exactly `us` in order, the buffer is untouched,
and both cursors end at the old write_index (the queue ends empty). -/
theorem popN_run (n : Nat) (us : List α) :
    ∀ (buf : List α) (r : Nat),
      buf.length = n + 1 → r < n + 1 → us.length ≤ n →
      (∀ i, i < us.length → buf.getD ((r + i) % (n + 1)) default = us.getD i default) →
      popN (⟨buf, r, (r + us.length) % (n + 1)⟩ : Queue α) us.length
        = (us.map some,
           ⟨buf, (r + us.length) % (n + 1), (r + us.length) % (n + 1)⟩) := by
  induction us with
  | nil =>
    intro buf r hbuf hr _ _
    simp only [List.length_nil]
    have harg : (r + 0) % (n + 1) = r := by
      rw [Nat.add_zero, Nat.mod_eq_of_lt hr]
    rw [harg]
    rfl
  | cons u rest ih =>
    intro buf r hbuf hr hm hcontent
    have hlen : (u :: rest).length = rest.length + 1 := rfl
    have hpop : base_pop (⟨buf, r, (r + (u :: rest).length) % (n + 1)⟩ : Queue α)
        = (some u, ⟨buf, (r + 1) % (n + 1), (r + (u :: rest).length) % (n + 1)⟩) := by
      have hne : r ≠ (r + (u :: rest).length) % (n + 1) := by
        intro hcontra
        exact add_mod_ne_self hr (by rw [hlen]; omega) (by rw [hlen] at hm ⊢; omega)
          hcontra.symm
      have hval : buf.getD r default = u := by
        have := hcontent 0 (by rw [hlen]; omega)
        rwa [Nat.add_zero, Nat.mod_eq_of_lt hr] at this
      have hnext : next_index buf.length r = (r + 1) % (n + 1) := by
        rw [hbuf, next_index_eq_mod hr]
      simp only [base_pop, hnext]
      rw [if_neg hne, hval]
    have hstep : popN (⟨buf, r, (r + (u :: rest).length) % (n + 1)⟩ : Queue α)
          ((u :: rest).length)
        = ((base_pop (⟨buf, r, (r + (u :: rest).length) % (n + 1)⟩ : Queue α)).1 ::
            (popN (base_pop (⟨buf, r, (r + (u :: rest).length) % (n + 1)⟩ : Queue α)).2
              rest.length).1,
           (popN (base_pop (⟨buf, r, (r + (u :: rest).length) % (n + 1)⟩ : Queue α)).2
              rest.length).2) := rfl
    have hr1 : (r + 1) % (n + 1) < n + 1 := Nat.mod_lt _ (Nat.succ_pos n)
    have hW : ((r + 1) % (n + 1) + rest.length) % (n + 1)
        = (r + (u :: rest).length) % (n + 1) := by
      rw [Nat.mod_add_mod, hlen]
      have harg : r + 1 + rest.length = r + (rest.length + 1) := by omega
      rw [harg]
    have hcontent' : ∀ i, i < rest.length →
        buf.getD (((r + 1) % (n + 1) + i) % (n + 1)) default = rest.getD i default := by
      intro i hi
      rw [Nat.mod_add_mod]
      have harg : r + 1 + i = r + (i + 1) := by omega
      rw [harg]
      have := hcontent (i + 1) (by rw [hlen]; omega)
      rw [this]
      rfl
    have hrec := ih buf ((r + 1) % (n + 1)) hbuf hr1 (by rw [hlen] at hm; omega) hcontent'
    rw [hW] at hrec
    rw [hstep, hpop, hrec]
    rfl

/-- Size formula of the ring: a state with read_index `r` and write_index
`(r + k) % (n + 1)` holds `k` elements. -/
lemma size_offset (n r k : Nat) (hr : r < n + 1) (hk : k ≤ n) :
    (n + 1 - r + (r + k) % (n + 1)) % (n + 1) = k := by
  rw [Nat.add_mod_mod]
  have h2 : n + 1 - r + (r + k) = n + 1 + k := by omega
  rw [h2, Nat.add_mod_left, Nat.mod_eq_of_lt (by omega)]

/-- C3: for capacity n ≥ 1 and any n values, from any empty queue state the n
plain pushes all return true, the following n pops all succeed and yield the
pushed values in order, and one further pop fails. -/
theorem fifo_round_trip (n : Nat) (vs buf : List α) (r : Nat)
    (hn : 1 ≤ n) (hvs : vs.length = n) (hbuf : buf.length = n + 1) (hr : r < n + 1) :
    (push_list .no_overwrite (⟨buf, r, r⟩ : Queue α) vs).1 = List.replicate n true
    ∧ (popN (push_list .no_overwrite (⟨buf, r, r⟩ : Queue α) vs).2 n).1 = vs.map some
    ∧ (base_pop (popN (push_list .no_overwrite (⟨buf, r, r⟩ : Queue α) vs).2 n).2).1
        = none := by
  obtain ⟨buf', heq, hlen', hcontent, _⟩ :=
    push_list_run n vs buf r 0 hbuf hr (by omega)
  simp only [Nat.add_zero] at heq hcontent
  rw [Nat.mod_eq_of_lt hr] at heq
  have hpops := popN_run n vs buf' r hlen' hr (by omega) hcontent
  rw [hvs] at heq hpops
  refine ⟨?_, ?_, ?_⟩
  · rw [heq]
  · rw [heq]
    show (popN (⟨buf', r, (r + n) % (n + 1)⟩ : Queue α) n).1 = vs.map some
    rw [hpops]
  · rw [heq]
    show (base_pop (popN (⟨buf', r, (r + n) % (n + 1)⟩ : Queue α) n).2).1 = none
    rw [hpops]
    simp [base_pop]

/-- C3 witness: capacity 3, values [10,20,30], empty start at read_index 1. -/
theorem fifo_round_trip_witness :
    ((1 : Nat) ≤ 3 ∧ ([10,20,30] : List Nat).length = 3
      ∧ ([0,0,0,0] : List Nat).length = 3 + 1 ∧ (1 : Nat) < 3 + 1)
    ∧ ((push_list .no_overwrite (⟨[0,0,0,0],1,1⟩ : Queue Nat) [10,20,30]).1
          = List.replicate 3 true
        ∧ (popN (push_list .no_overwrite (⟨[0,0,0,0],1,1⟩ : Queue Nat) [10,20,30]).2 3).1
            = [10,20,30].map some
        ∧ (base_pop
            (popN (push_list .no_overwrite (⟨[0,0,0,0],1,1⟩ : Queue Nat) [10,20,30]).2 3).2).1
            = none) :=
  ⟨⟨by decide, by decide, by decide, by decide⟩,
   fifo_round_trip 3 [10,20,30] [0,0,0,0] 1 (by decide) (by decide) (by decide) (by decide)⟩

/-- C4: after n successful no-overwrite pushes from an empty queue state of
capacity n, the next push of any element returns false and leaves the whole
queue state (buffer and both cursors) unchanged, and size() is n. -/
theorem no_overwrite_full_push_fails (n : Nat) (vs buf : List α) (r : Nat)
    (hvs : vs.length = n) (hbuf : buf.length = n + 1) (hr : r < n + 1) :
    (push_list .no_overwrite (⟨buf, r, r⟩ : Queue α) vs).1 = List.replicate n true
    ∧ (∀ e : α, base_push (push_list .no_overwrite (⟨buf, r, r⟩ : Queue α) vs).2 e
        = (false, (push_list .no_overwrite (⟨buf, r, r⟩ : Queue α) vs).2))
    ∧ qsize (push_list .no_overwrite (⟨buf, r, r⟩ : Queue α) vs).2 = n := by
  obtain ⟨buf', heq, hlen', _, _⟩ :=
    push_list_run n vs buf r 0 hbuf hr (by omega)
  simp only [Nat.add_zero] at heq
  rw [Nat.mod_eq_of_lt hr, hvs] at heq
  have hw : (r + n) % (n + 1) < n + 1 := Nat.mod_lt _ (Nat.succ_pos n)
  have hnext : next_index buf'.length ((r + n) % (n + 1)) = r := by
    rw [hlen', next_index_eq_mod hw, Nat.mod_add_mod]
    have harg : r + n + 1 = r + (n + 1) := by omega
    rw [harg, Nat.add_mod_right, Nat.mod_eq_of_lt hr]
  refine ⟨?_, ?_, ?_⟩
  · rw [heq]
  · intro e
    rw [heq]
    simp [base_push, hnext]
  · rw [heq]
    show (buf'.length - r + (r + n) % (n + 1)) % buf'.length = n
    rw [hlen']
    exact size_offset n r n hr (Nat.le_refl n)

/-- C4 witness: capacity 2, pushing [7,8] from a fresh-like empty state. -/
theorem no_overwrite_full_push_fails_witness :
    (([7,8] : List Nat).length = 2 ∧ ([0,0,0] : List Nat).length = 2 + 1
      ∧ (0 : Nat) < 2 + 1)
    ∧ ((push_list .no_overwrite (⟨[0,0,0],0,0⟩ : Queue Nat) [7,8]).1
          = List.replicate 2 true
        ∧ (∀ e : Nat, base_push (push_list .no_overwrite (⟨[0,0,0],0,0⟩ : Queue Nat) [7,8]).2 e
            = (false, (push_list .no_overwrite (⟨[0,0,0],0,0⟩ : Queue Nat) [7,8]).2))
        ∧ qsize (push_list .no_overwrite (⟨[0,0,0],0,0⟩ : Queue Nat) [7,8]).2 = 2) :=
  ⟨⟨by decide, by decide, by decide⟩,
   no_overwrite_full_push_fails 2 [7,8] [0,0,0] 0 (by decide) (by decide) (by decide)⟩

/-- Size formula after an overwrite-policy eviction: read_index is the successor
of `r0` and write_index is `r0`, which is a full queue of size `n`. -/
lemma size_after_evict (n r0 : Nat) (hr : r0 < n + 1) :
    (n + 1 - (r0 + 1) % (n + 1) + r0) % (n + 1) = n := by
  by_cases h : r0 + 1 = n + 1
  · rw [h, Nat.mod_self, Nat.sub_zero]
    have hr0 : r0 = n := by omega
    rw [hr0, Nat.add_mod_left, Nat.mod_eq_of_lt (by omega)]
  · have hinner : (r0 + 1) % (n + 1) = r0 + 1 := Nat.mod_eq_of_lt (by omega)
    have harg : n + 1 - (r0 + 1) + r0 = n := by omega
    rw [hinner, harg, Nat.mod_eq_of_lt (by omega)]

/-- C10: an overwrite-policy push from any state with in-range read_index sets
write_index to the previous read_index and read_index to its successor, so the
queue reports full() and size() = capacity immediately afterwards, no matter
how many elements were enqueued before. -/
theorem overwrite_push_forces_full (n : Nat) (q : Queue α) (e : α)
    (hbuf : q.buffer.length = n + 1) (hr : q.read_index < n + 1) :
    (overwrite_push q e).1 = true
    ∧ (overwrite_push q e).2.write_index = q.read_index
    ∧ (overwrite_push q e).2.read_index = next_index (n + 1) q.read_index
    ∧ qfull (overwrite_push q e).2 = true
    ∧ qsize (overwrite_push q e).2 = n := by
  have hlen : (q.buffer.set q.read_index e).length = n + 1 := by
    rw [List.length_set, hbuf]
  have hread : next_index q.buffer.length q.read_index = (q.read_index + 1) % (n + 1) := by
    rw [hbuf, next_index_eq_mod hr]
  refine ⟨rfl, rfl, ?_, ?_, ?_⟩
  · show next_index q.buffer.length q.read_index = next_index (n + 1) q.read_index
    rw [hbuf]
  · show (next_index (q.buffer.set q.read_index e).length q.read_index
        == next_index q.buffer.length q.read_index) = true
    rw [hlen, hbuf]
    exact beq_self_eq_true _
  · show ((q.buffer.set q.read_index e).length
          - next_index q.buffer.length q.read_index + q.read_index)
        % (q.buffer.set q.read_index e).length = n
    rw [hlen, hread]
    exact size_after_evict n q.read_index hr

/-- C10 witness: overwrite push of 9 onto the partially filled capacity-2 queue
with buffer [5,6,0], read_index 0, write_index 2. -/
theorem overwrite_push_forces_full_witness :
    ((⟨[5,6,0],0,2⟩ : Queue Nat).buffer.length = 2 + 1
      ∧ (⟨[5,6,0],0,2⟩ : Queue Nat).read_index < 2 + 1)
    ∧ ((overwrite_push (⟨[5,6,0],0,2⟩ : Queue Nat) 9).1 = true
        ∧ (overwrite_push (⟨[5,6,0],0,2⟩ : Queue Nat) 9).2.write_index
            = (⟨[5,6,0],0,2⟩ : Queue Nat).read_index
        ∧ (overwrite_push (⟨[5,6,0],0,2⟩ : Queue Nat) 9).2.read_index
            = next_index (2 + 1) (⟨[5,6,0],0,2⟩ : Queue Nat).read_index
        ∧ qfull (overwrite_push (⟨[5,6,0],0,2⟩ : Queue Nat) 9).2 = true
        ∧ qsize (overwrite_push (⟨[5,6,0],0,2⟩ : Queue Nat) 9).2 = 2) :=
  ⟨⟨by decide, by decide⟩,
   overwrite_push_forces_full 2 (⟨[5,6,0],0,2⟩ : Queue Nat) 9 (by decide) (by decide)⟩

/-! ### Reachable states and the cursor/size invariant -/

/-- The public mutating operations of the queue, as an action alphabet. -/
inductive Op (α : Type) where
  | push : α → Op α
  | pop : Op α
  | clear : Op α
  | pushWaitFor : α → Nat → Op α
  | popWaitFor : Nat → Op α
  | pushRange : List α → Op α
  | popRange : Nat → Op α
  | consumeWith : Op α

/-- The state transition of each public operation. -/
def apply_op (p : Policy) (q : Queue α) : Op α → Queue α
  | .push e => (qpush p q e).2
  | .pop => (base_pop q).2
  | .clear => qclear q
  | .pushWaitFor e k => (push_wait_for p q e k).2
  | .popWaitFor k => (pop_wait_for q k).2
  | .pushRange l => (push_range p q l).2
  | .popRange k => (popN q k).2
  | .consumeWith => (consume_with q).2.1

/-- States reachable from a freshly constructed queue of capacity `n` by any
sequence of public operations under policy `p`. -/
inductive Reachable (p : Policy) (n : Nat) : Queue α → Prop where
  | init : Reachable p n (fresh n)
  | step {q : Queue α} (h : Reachable p n q) (op : Op α) :
      Reachable p n (apply_op p q op)

/-- The structural invariant: the buffer has `n + 1` slots and both cursors are
in range `[0, n]`. -/
def Inv (n : Nat) (q : Queue α) : Prop :=
  q.buffer.length = n + 1 ∧ q.read_index < n + 1 ∧ q.write_index < n + 1

lemma inv_base_push {n : Nat} {q : Queue α} {e : α} (h : Inv n q) :
    Inv n (base_push q e).2 := by
  obtain ⟨h1, h2, h3⟩ := h
  by_cases hfull : next_index q.buffer.length q.write_index = q.read_index
  · have hq : (base_push q e).2 = q := by simp [base_push, hfull]
    rw [hq]
    exact ⟨h1, h2, h3⟩
  · have hq : (base_push q e).2
        = ⟨q.buffer.set q.write_index e, q.read_index,
           next_index q.buffer.length q.write_index⟩ := by
      simp [base_push, hfull]
    rw [hq]
    refine ⟨?_, h2, ?_⟩
    · show (q.buffer.set q.write_index e).length = n + 1
      rw [List.length_set, h1]
    · show next_index q.buffer.length q.write_index < n + 1
      rw [h1]
      exact next_index_lt h3

lemma inv_overwrite_push {n : Nat} {q : Queue α} {e : α} (h : Inv n q) :
    Inv n (overwrite_push q e).2 := by
  obtain ⟨h1, h2, h3⟩ := h
  refine ⟨?_, ?_, ?_⟩
  · show (q.buffer.set q.read_index e).length = n + 1
    rw [List.length_set, h1]
  · show next_index q.buffer.length q.read_index < n + 1
    rw [h1]
    exact next_index_lt h2
  · exact h2

lemma inv_qpush {p : Policy} {n : Nat} {q : Queue α} {e : α} (h : Inv n q) :
    Inv n (qpush p q e).2 := by
  cases p with
  | no_overwrite => exact inv_base_push h
  | overwrite => exact inv_overwrite_push h

lemma inv_base_pop {n : Nat} {q : Queue α} (h : Inv n q) : Inv n (base_pop q).2 := by
  obtain ⟨h1, h2, h3⟩ := h
  by_cases hemp : q.read_index = q.write_index
  · have hq : (base_pop q).2 = q := by simp [base_pop, hemp]
    rw [hq]
    exact ⟨h1, h2, h3⟩
  · have hq : (base_pop q).2
        = ⟨q.buffer, next_index q.buffer.length q.read_index, q.write_index⟩ := by
      simp [base_pop, hemp]
    rw [hq]
    refine ⟨h1, ?_, h3⟩
    show next_index q.buffer.length q.read_index < n + 1
    rw [h1]
    exact next_index_lt h2

lemma inv_qclear {n : Nat} {q : Queue α} (h : Inv n q) : Inv n (qclear q) := by
  obtain ⟨h1, h2, h3⟩ := h
  exact ⟨h1, h3, h3⟩

lemma inv_push_wait_for {p : Policy} {n : Nat} {e : α} :
    ∀ (k : Nat) (q : Queue α), Inv n q → Inv n (push_wait_for p q e k).2 := by
  intro k
  induction k with
  | zero => intro q h; exact h
  | succ m ih =>
    intro q h
    rcases hp : qpush p q e with ⟨b, q'⟩
    have hq' : Inv n q' := by
      have := inv_qpush (p := p) (q := q) (e := e) h
      rwa [hp] at this
    cases b with
    | true => simpa [push_wait_for, hp] using hq'
    | false => simpa [push_wait_for, hp] using ih q' hq'

lemma inv_pop_wait_for {n : Nat} :
    ∀ (k : Nat) (q : Queue α), Inv n q → Inv n (pop_wait_for q k).2 := by
  intro k
  induction k with
  | zero => intro q h; exact h
  | succ m ih =>
    intro q h
    rcases hp : base_pop q with ⟨o, q'⟩
    have hq' : Inv n q' := by
      have := inv_base_pop (q := q) h
      rwa [hp] at this
    cases o with
    | some v => simpa [pop_wait_for, hp] using hq'
    | none => simpa [pop_wait_for, hp] using ih q' hq'

lemma inv_push_range {p : Policy} {n : Nat} :
    ∀ (l : List α) (q : Queue α), Inv n q → Inv n (push_range p q l).2 := by
  intro l
  induction l with
  | nil => intro q h; exact h
  | cons e es ih =>
    intro q h
    rcases hp : qpush p q e with ⟨b, q'⟩
    have hq' : Inv n q' := by
      have := inv_qpush (p := p) (q := q) (e := e) h
      rwa [hp] at this
    cases b with
    | true => simpa [push_range, hp] using ih q' hq'
    | false => simpa [push_range, hp] using hq'

lemma inv_popN {n : Nat} :
    ∀ (k : Nat) (q : Queue α), Inv n q → Inv n (popN q k).2 := by
  intro k
  induction k with
  | zero => intro q h; exact h
  | succ m ih =>
    intro q h
    exact ih (base_pop q).2 (inv_base_pop h)

lemma inv_consume_with {n : Nat} {q : Queue α} (h : Inv n q) :
    Inv n (consume_with q).2.1 := by
  rcases hp : base_pop q with ⟨o, q'⟩
  have hq' : Inv n q' := by
    have := inv_base_pop (q := q) h
    rwa [hp] at this
  cases o with
  | some v => simpa [consume_with, hp] using hq'
  | none => simpa [consume_with, hp] using hq'

lemma inv_apply_op {p : Policy} {n : Nat} {q : Queue α} (h : Inv n q) (op : Op α) :
    Inv n (apply_op p q op) := by
  cases op with
  | push e => exact inv_qpush h
  | pop => exact inv_base_pop h
  | clear => exact inv_qclear h
  | pushWaitFor e k => exact inv_push_wait_for k q h
  | popWaitFor k => exact inv_pop_wait_for k q h
  | pushRange l => exact inv_push_range l q h
  | popRange k => exact inv_popN k q h
  | consumeWith => exact inv_consume_with h

lemma reachable_inv {p : Policy} {n : Nat} {q : Queue α} (h : Reachable p n q) :
    Inv n q := by
  induction h with
  | init =>
    refine ⟨?_, Nat.succ_pos n, Nat.succ_pos n⟩
    show (List.replicate (n + 1) (default : α)).length = n + 1
    rw [List.length_replicate]
  | step _ op ih => exact inv_apply_op ih op

/-- C7: in every state reachable by any sequence of queue operations under
either policy, both cursors lie in `[0, capacity]`, and size() equals
`(capacity + 1 - read_index + write_index) mod (capacity + 1)`, which lies in
`[0, capacity]`. -/
theorem reachable_cursor_size_inv (p : Policy) (n : Nat) (q : Queue α)
    (h : Reachable p n q) :
    q.read_index ≤ n ∧ q.write_index ≤ n
    ∧ qsize q = (n + 1 - q.read_index + q.write_index) % (n + 1)
    ∧ qsize q ≤ n := by
  obtain ⟨h1, h2, h3⟩ := reachable_inv h
  refine ⟨by omega, by omega, ?_, ?_⟩
  · simp [qsize, h1]
  · have : qsize q < n + 1 := by
      simp only [qsize, h1]
      exact Nat.mod_lt _ (Nat.succ_pos n)
    omega

/-- C7 witness: the capacity-2 state reached from a fresh queue by pushing 5,
pushing 6 and popping once satisfies the cursor and size invariants. -/
theorem reachable_cursor_size_inv_witness :
    (apply_op .no_overwrite
        (apply_op .no_overwrite
          (apply_op .no_overwrite (fresh 2 : Queue Nat) (Op.push 5)) (Op.push 6))
        Op.pop).read_index ≤ 2
    ∧ (apply_op .no_overwrite
        (apply_op .no_overwrite
          (apply_op .no_overwrite (fresh 2 : Queue Nat) (Op.push 5)) (Op.push 6))
        Op.pop).write_index ≤ 2
    ∧ qsize (apply_op .no_overwrite
        (apply_op .no_overwrite
          (apply_op .no_overwrite (fresh 2 : Queue Nat) (Op.push 5)) (Op.push 6))
        Op.pop)
      = (2 + 1
          - (apply_op .no_overwrite
              (apply_op .no_overwrite
                (apply_op .no_overwrite (fresh 2 : Queue Nat) (Op.push 5)) (Op.push 6))
              Op.pop).read_index
          + (apply_op .no_overwrite
              (apply_op .no_overwrite
                (apply_op .no_overwrite (fresh 2 : Queue Nat) (Op.push 5)) (Op.push 6))
              Op.pop).write_index) % (2 + 1)
    ∧ qsize (apply_op .no_overwrite
        (apply_op .no_overwrite
          (apply_op .no_overwrite (fresh 2 : Queue Nat) (Op.push 5)) (Op.push 6))
        Op.pop) ≤ 2 :=
  reachable_cursor_size_inv .no_overwrite 2 _
    (Reachable.step (Reachable.step (Reachable.step Reachable.init (Op.push 5))
      (Op.push 6)) Op.pop)

end Lockfree
